import Mathlib

/-!
Verification development for `micropython-inputs` (`inputs.py`).

The file gives a shallow embedding of the input-processing core of the
library and proves properties of it.  Hardware- and interrupt-facing
pieces (`pyb.Pin`, `pyb.ADC`, `pyb.Timer`, `disable_irq`/`enable_irq`)
are external collaborators: a digital read is modelled as a natural
number `0`/`1` handed to `service_input`, an ADC read as a natural
number sample, and the timer as an explicit list of ticks.  Everything
else follows the Python source line by line.
-/

/- ------------------------------------------------------------------
   Manager and input identity (`inputs.py`, `Manager`, `InputBase`)
   ------------------------------------------------------------------ -/

/-- An input as the `Manager` sees it: the pin name and the optional
descriptive name parsed from the `pin_name` argument of
`InputBase.__init__` (`name_parts`). -/
structure Input where
  pin_name : String
  input_name : Option String
deriving DecidableEq

/-- Model of `InputBase.key_name`: the descriptive input name if present,
otherwise the pin name. -/
def Input.key_name (i : Input) : String :=
  match i.input_name with
  | some n => n
  | none => i.pin_name

/-- The `Manager` after construction: it simply stores the list of
inputs it was given.  (`Manager.__init__` also registers a `pyb.Timer`
callback, an external side effect with no influence on the stored
state.) -/
structure Manager where
  inputs : List Input
deriving DecidableEq

/-- Model of `Manager.__init__`.  The constructor is modelled as fallible
(`Option`) so that "construction fails" is expressible; the Python
constructor body performs no validation of any kind and always
succeeds, hence the result is always `some`. -/
def Manager.init (inputs : List Input) : Option Manager :=
  some { inputs := inputs }

/- ------------------------------------------------------------------
   Analog inputs (`AnalogBase`, `Analog`, `AnalogDeviation`)
   ------------------------------------------------------------------ -/

/-- State of an analog input: the ring buffer `_buf` (an `array.array('H')`
of `buffer_size` slots, initially all zero), the ring index `_ix`, and the
stored `_buflen = buffer_size`. -/
structure AnalogState where
  buf : List ℕ
  ix : ℕ
  buflen : ℕ
deriving DecidableEq

/-- Model of `AnalogBase.__init__` (shared verbatim by `Analog` and
`AnalogDeviation`, which add no constructor of their own).  Modelled as
fallible (`Option`) so that "construction fails" is expressible; the
Python constructor performs no validation of `buffer_size` and always
succeeds. -/
def AnalogBase.init (buffer_size : ℕ) : Option AnalogState :=
  some { buf := List.replicate buffer_size 0, ix := 0, buflen := buffer_size }

/-- Model of `AnalogBase.service_input`: store the fresh ADC sample at the ring
index and advance the index modulo `_buflen`. -/
def AnalogBase.service_input (s : AnalogState) (sample : ℕ) : AnalogState :=
  { s with buf := s.buf.set s.ix sample, ix := (s.ix + 1) % s.buflen }

/-- A run of ticks: one sample ingested per tick, in order. -/
def AnalogBase.run (s : AnalogState) (samples : List ℕ) : AnalogState :=
  samples.foldl AnalogBase.service_input s

/-- A state the constructor can reach and `service_input` preserves:
the buffer has exactly `_buflen` slots and the ring index is in range. -/
def AnalogState.valid (s : AnalogState) : Prop :=
  s.buf.length = s.buflen ∧ s.ix < s.buflen

instance (s : AnalogState) : Decidable s.valid := by
  unfold AnalogState.valid; infer_instance

/-- Model of `Analog._compute_value`, that is `sum(self._buf) / self._buflen`, exact
arithmetic over ℚ.  (`InputBase.value` applies the optional
`convert_func` to this afterwards.) -/
def Analog.compute_value (s : AnalogState) : ℚ :=
  (s.buf.sum : ℚ) / (s.buflen : ℚ)

/-- Model of `AnalogDeviation._compute_value`, up to the final `math.sqrt`: the
returned value is `math.sqrt` of this quantity `dev_sq / (n - 1)`.
Modelled as fallible: Python raises `ZeroDivisionError` at
`mean = sum(buf)/n` when `n = 0` and at `dev_sq/(n-1)` when `n = 1`;
those two division-by-zero sites are the two `none` branches, in the
order the Python code reaches them. -/
def AnalogDeviation.compute_value_sq (s : AnalogState) : Option ℚ :=
  let n := s.buflen
  if n = 0 then none
  else
    let mean : ℚ := (s.buf.sum : ℚ) / (n : ℚ)
    let dev_sq : ℚ := (s.buf.map (fun v : ℕ => ((v : ℚ) - mean) * ((v : ℚ) - mean))).sum
    if n = 1 then none
    else some (dev_sq / ((n : ℚ) - 1))

/- ------------------------------------------------------------------
   Claim C1: duplicate keys at Manager construction
   ------------------------------------------------------------------ -/

/-- C1, counterexample.  The claim says that for every input list
containing a duplicated key, construction does not produce a `Manager`.
Concretely, two inputs both keyed `"X1"` have duplicate keys, yet
`Manager.__init__` succeeds: it performs no key-uniqueness check. -/
theorem manager_init_accepts_duplicate_keys :
    ¬ (List.map Input.key_name [⟨"X1", none⟩, ⟨"X1", none⟩]).Nodup
    ∧ Manager.init [⟨"X1", none⟩, ⟨"X1", none⟩] ≠ none := by
  constructor
  · decide
  · simp [Manager.init]

/-- C1, amended.  `Manager.__init__` performs no key-uniqueness
validation: for every list of inputs — duplicated keys or not —
construction succeeds and produces the `Manager` holding exactly that
list. -/
theorem manager_init_total (inputs : List Input) :
    Manager.init inputs = some { inputs := inputs } := rfl

/- ------------------------------------------------------------------
   Claim C2: deviation sampler capacity validation
   ------------------------------------------------------------------ -/

/-- C2, counterexample.  The claim says `buffer_size < 2` fails at
construction and that a successfully constructed `AnalogDeviation`
never divides by zero in `value()`.  In fact `buffer_size = 1`
constructs successfully, and `value()` on the constructed state then
raises `ZeroDivisionError` at `dev_sq / (n - 1)`. -/
theorem deviation_capacity_one_constructs_then_divides_by_zero :
    AnalogBase.init 1 = some { buf := [0], ix := 0, buflen := 1 }
    ∧ AnalogDeviation.compute_value_sq { buf := [0], ix := 0, buflen := 1 } = none := by
  constructor
  · rfl
  · rfl

/-- C2, amended.  `AnalogBase.__init__` performs no validation of
`buffer_size`: every capacity constructs successfully.  The
division-by-zero in `AnalogDeviation._compute_value` is a runtime
fault, not a construction-time error: it occurs exactly when the
configured capacity is `< 2`, and for capacity `≥ 2` the computation
always succeeds. -/
theorem deviation_divzero_iff_capacity_lt_two :
    (∀ buffer_size : ℕ,
      AnalogBase.init buffer_size
        = some { buf := List.replicate buffer_size 0, ix := 0, buflen := buffer_size })
    ∧ (∀ s : AnalogState, 2 ≤ s.buflen → (AnalogDeviation.compute_value_sq s).isSome)
    ∧ (∀ s : AnalogState, s.buflen ≤ 1 → AnalogDeviation.compute_value_sq s = none) := by
  refine ⟨fun _ => rfl, fun s h2 => ?_, fun s h1 => ?_⟩
  · have h0 : s.buflen ≠ 0 := by omega
    have h1 : s.buflen ≠ 1 := by omega
    simp [AnalogDeviation.compute_value_sq, h0, h1]
  · rcases Nat.le_one_iff_eq_zero_or_eq_one.mp h1 with h | h <;>
      simp [AnalogDeviation.compute_value_sq, h]

/-- C2, witness for the amended theorem: capacity 2 constructs and its
deviation computation performs no division by zero. -/
theorem deviation_divzero_iff_capacity_lt_two_witness :
    (AnalogDeviation.compute_value_sq { buf := [0, 100], ix := 0, buflen := 2 }).isSome :=
  deviation_divzero_iff_capacity_lt_two.2.1 { buf := [0, 100], ix := 0, buflen := 2 }
    (by decide)

/- ------------------------------------------------------------------
   Digital inputs (`DigitalBase`, `Digital`, `Counter`)
   ------------------------------------------------------------------ -/

/-- The `pull` argument of `pyb.Pin`: `PULL_UP`, `PULL_DOWN`, `PULL_NONE`. -/
inductive Pull
  | up
  | down
  | free
deriving DecidableEq

/-- An edge event: the `lh_func` (rising) or `hl_func` (falling)
callback invoked by `Digital.service_input`.  The callbacks themselves
are external user functions; the model records which of them fires. -/
inductive Edge
  | rising
  | falling
deriving DecidableEq

/-- State shared by all digital inputs (`DigitalBase`): the bit window
`_reads` of recent raw reads (most recent read in the LSB), the current
debounced value `_cur_val`, and the window mask `_mask`. -/
structure DigState where
  reads : ℕ
  cur_val : ℕ
  mask : ℕ
deriving DecidableEq

/-- Model of `DigitalBase.__init__`: it sets `_mask = 2 ** stable_read_count - 1`; the
window and current value start consistent with the configured pull
(`PULL_UP` reads as 1 at rest, anything else as 0). -/
def DigitalBase.init (pull : Pull) (stable_read_count : ℕ) : DigState :=
  let mask := 2 ^ stable_read_count - 1
  if pull = Pull.up then { reads := mask, cur_val := 1, mask := mask }
  else { reads := 0, cur_val := 0, mask := mask }

/-- The window update `((self._reads << 1) | bit) & self._mask`
performed first by every digital `service_input`. -/
def nextReads (s : DigState) (bit : ℕ) : ℕ :=
  ((s.reads <<< 1) ||| bit) &&& s.mask

/-- Model of `Digital.service_input` for one raw read: shift the read into the
window; if the window is neither all-zeros nor all-ones the state is
bouncing and nothing else happens; otherwise the stable bit is compared
with `_cur_val` and a transition fires the corresponding callback. -/
def Digital.service_input (s : DigState) (bit : ℕ) : DigState × Option Edge :=
  let reads := nextReads s bit
  if reads ≠ 0 ∧ reads ≠ s.mask then ({ s with reads := reads }, none)
  else
    let new_val := reads &&& 1
    if new_val = s.cur_val then ({ s with reads := reads }, none)
    else if new_val > s.cur_val then
      ({ s with reads := reads, cur_val := new_val }, some Edge.rising)
    else
      ({ s with reads := reads, cur_val := new_val }, some Edge.falling)

/-- A run of ticks over a `Digital` input: final state plus the edges
fired along the way, in order. -/
def Digital.run (s : DigState) (bits : List ℕ) : DigState × List Edge :=
  bits.foldl
    (fun p b =>
      let r := Digital.service_input p.1 b
      (r.1, p.2 ++ r.2.toList))
    (s, [])

/-- Model of `Digital._compute_value`. -/
def Digital.compute_value (s : DigState) : ℕ := s.cur_val

/-- Counter state: the `DigitalBase` fields plus `edges`,
`reset_on_read`, `_rollover` and `_count`. -/
structure CtrState where
  reads : ℕ
  cur_val : ℕ
  mask : ℕ
  edges : ℕ
  reset_on_read : Bool
  rollover : ℕ
  count : ℕ
deriving DecidableEq

/-- The constant `Counter.ONE_EDGE`. -/
def Counter.ONE_EDGE : ℕ := 1

/-- The constant `Counter.BOTH_EDGES`. -/
def Counter.BOTH_EDGES : ℕ := 2

/-- Model of `Counter.__init__`: the `DigitalBase` initialisation plus the counter
fields, with `_count = 0`. -/
def Counter.init (pull : Pull) (stable_read_count : ℕ) (edges : ℕ)
    (reset_on_read : Bool) (rollover : ℕ) : CtrState :=
  let d := DigitalBase.init pull stable_read_count
  { reads := d.reads, cur_val := d.cur_val, mask := d.mask,
    edges := edges, reset_on_read := reset_on_read,
    rollover := rollover, count := 0 }

/-- The window update of `Counter.service_input` (same expression as
`Digital.service_input`). -/
def Counter.nextReads (s : CtrState) (bit : ℕ) : ℕ :=
  ((s.reads <<< 1) ||| bit) &&& s.mask

/-- Model of `Counter.service_input`: same debounce as `Digital`; a debounced
high-to-low transition always increments `_count` modulo `_rollover`; a
low-to-high transition increments only when `edges == BOTH_EDGES`. -/
def Counter.service_input (s : CtrState) (bit : ℕ) : CtrState :=
  let reads := Counter.nextReads s bit
  if reads ≠ 0 ∧ reads ≠ s.mask then { s with reads := reads }
  else
    let new_val := reads &&& 1
    if new_val = s.cur_val then { s with reads := reads }
    else if new_val < s.cur_val then
      { s with reads := reads, count := (s.count + 1) % s.rollover, cur_val := new_val }
    else if s.edges = Counter.BOTH_EDGES then
      { s with reads := reads, count := (s.count + 1) % s.rollover, cur_val := new_val }
    else
      { s with reads := reads, cur_val := new_val }

/-- A run of ticks over a `Counter`. -/
def Counter.run (s : CtrState) (bits : List ℕ) : CtrState :=
  bits.foldl Counter.service_input s

/-- Model of `Counter._compute_value`: read the count, and zero it when
`reset_on_read` is set.  Returns the value read together with the
post-read state.  (`InputBase.value` applies the optional
`convert_func` to the first component afterwards; the read runs with
interrupts disabled, so it is atomic with respect to ticks.) -/
def Counter.compute_value (s : CtrState) : ℕ × CtrState :=
  let ct := s.count
  if s.reset_on_read then (ct, { s with count := 0 }) else (ct, s)

/-- Model of `Counter.reset_count`. -/
def Counter.reset_count (s : CtrState) : CtrState :=
  { s with count := 0 }

/- ------------------------------------------------------------------
   Claim C9: Counter read semantics and frame
   ------------------------------------------------------------------ -/

/-- C9.  Reading a counter via `value()` returns the count held at the
time of the read; afterwards the count is 0 when `reset_on_read` is
set and unchanged otherwise, and no other field of the counter (read
window, stable value, mask, edges mode, rollover, reset flag) is
modified by the read. -/
theorem counter_read_returns_count_and_touches_nothing_else (s : CtrState) :
    (Counter.compute_value s).1 = s.count
    ∧ (Counter.compute_value s).2.count = (if s.reset_on_read then 0 else s.count)
    ∧ (Counter.compute_value s).2.reads = s.reads
    ∧ (Counter.compute_value s).2.cur_val = s.cur_val
    ∧ (Counter.compute_value s).2.mask = s.mask
    ∧ (Counter.compute_value s).2.edges = s.edges
    ∧ (Counter.compute_value s).2.rollover = s.rollover
    ∧ (Counter.compute_value s).2.reset_on_read = s.reset_on_read := by
  cases h : s.reset_on_read <;> simp [Counter.compute_value, h]

/- ------------------------------------------------------------------
   Claim C5: which edges increment the counter
   ------------------------------------------------------------------ -/

/-- One tick of a counter does exactly one of three things: no
debounced transition and no count change; a falling transition
(stable value drops) with an unconditional modular increment; or a
rising transition (stable value climbs) with an increment exactly when
`edges == BOTH_EDGES`. -/
theorem counter_step_cases (s : CtrState) (bit : ℕ) :
    ((Counter.service_input s bit).cur_val = s.cur_val
        ∧ (Counter.service_input s bit).count = s.count)
    ∨ ((Counter.service_input s bit).cur_val < s.cur_val
        ∧ (Counter.service_input s bit).count = (s.count + 1) % s.rollover)
    ∨ (s.cur_val < (Counter.service_input s bit).cur_val
        ∧ (Counter.service_input s bit).count
            = (if s.edges = Counter.BOTH_EDGES then (s.count + 1) % s.rollover else s.count)) := by
  simp only [Counter.service_input]
  by_cases h1 : Counter.nextReads s bit ≠ 0 ∧ Counter.nextReads s bit ≠ s.mask
  · rw [if_pos h1]
    exact Or.inl ⟨rfl, rfl⟩
  · rw [if_neg h1]
    by_cases h2 : Counter.nextReads s bit &&& 1 = s.cur_val
    · rw [if_pos h2]
      exact Or.inl ⟨rfl, rfl⟩
    · rw [if_neg h2]
      by_cases h3 : Counter.nextReads s bit &&& 1 < s.cur_val
      · rw [if_pos h3]
        exact Or.inr (Or.inl ⟨h3, rfl⟩)
      · rw [if_neg h3]
        by_cases h4 : s.edges = Counter.BOTH_EDGES
        · rw [if_pos h4]
          refine Or.inr (Or.inr ⟨?_, ?_⟩)
          · show s.cur_val < Counter.nextReads s bit &&& 1
            omega
          · show (s.count + 1) % s.rollover = _
            rw [if_pos h4]
        · rw [if_neg h4]
          refine Or.inr (Or.inr ⟨?_, ?_⟩)
          · show s.cur_val < Counter.nextReads s bit &&& 1
            omega
          · show s.count = _
            rw [if_neg h4]

/-- Four stable low-to-high-to-low pulse cycles for a counter with
`stable_read_count = 4` (its default): each level is held for 4 raw
reads, long enough to debounce. -/
def fourPulseCycles : List ℕ :=
  [1, 1, 1, 1, 0, 0, 0, 0,
   1, 1, 1, 1, 0, 0, 0, 0,
   1, 1, 1, 1, 0, 0, 0, 0,
   1, 1, 1, 1, 0, 0, 0, 0]

set_option maxRecDepth 40000 in
/-- C5.  A debounced high-to-low (falling) transition — a tick on which
the stable value drops — increments the count modulo the rollover
regardless of the edges mode; a debounced low-to-high (rising)
transition increments the count exactly when `edges == BOTH_EDGES`; a
tick with no transition leaves the count unchanged.  Consequently four
stable low-high-low cycles fed to a freshly constructed counter yield a
count of 8 with `BOTH_EDGES` and 4 with `ONE_EDGE`. -/
theorem counter_edge_increments (s : CtrState) (bit : ℕ) :
    ((Counter.service_input s bit).cur_val < s.cur_val →
      (Counter.service_input s bit).count = (s.count + 1) % s.rollover)
    ∧ (s.cur_val < (Counter.service_input s bit).cur_val →
      (Counter.service_input s bit).count =
        (if s.edges = Counter.BOTH_EDGES then (s.count + 1) % s.rollover else s.count))
    ∧ ((Counter.service_input s bit).cur_val = s.cur_val →
      (Counter.service_input s bit).count = s.count)
    ∧ (Counter.run (Counter.init Pull.down 4 Counter.BOTH_EDGES false 1073741823)
        fourPulseCycles).count = 8
    ∧ (Counter.run (Counter.init Pull.down 4 Counter.ONE_EDGE false 1073741823)
        fourPulseCycles).count = 4 := by
  refine ⟨?_, ?_, ?_, by decide, by decide⟩ <;> intro h <;>
    rcases counter_step_cases s bit with ⟨h1, h2⟩ | ⟨h1, h2⟩ | ⟨h1, h2⟩ <;>
    first
      | exact h2
      | exact absurd h (by omega)

/-- C5, witness: a concrete falling transition (window all-zero after a
0 read, current value 1) increments the count. -/
theorem counter_edge_increments_witness :
    (Counter.service_input
        { reads := 1, cur_val := 1, mask := 1, edges := Counter.ONE_EDGE,
          reset_on_read := false, rollover := 10, count := 0 } 0).count = (0 + 1) % 10 :=
  (counter_edge_increments
    { reads := 1, cur_val := 1, mask := 1, edges := Counter.ONE_EDGE,
      reset_on_read := false, rollover := 10, count := 0 } 0).1 (by decide)

/- ------------------------------------------------------------------
   Claim C6: rollover invariant
   ------------------------------------------------------------------ -/

/-- C6.  For a counter with `rollover ≥ 1`: the count starts at 0 after
construction; every tick either leaves the count unchanged or replaces
it by `(count + 1) % rollover` — the increment is modular; the
invariant `count < rollover` is preserved by every tick, by every read
(`_compute_value`, reset-on-read included) and by `reset_count`; and
`rollover` successive increments starting from 0 bring the count back
to 0. -/
theorem counter_rollover_invariant :
    (∀ pull src edges b r, (Counter.init pull src edges b r).count = 0)
    ∧ (∀ s : CtrState, ∀ bit,
        (Counter.service_input s bit).count = s.count
        ∨ (Counter.service_input s bit).count = (s.count + 1) % s.rollover)
    ∧ (∀ s : CtrState, ∀ bit, 1 ≤ s.rollover → s.count < s.rollover →
        (Counter.service_input s bit).count < s.rollover)
    ∧ (∀ s : CtrState, 1 ≤ s.rollover → s.count < s.rollover →
        (Counter.compute_value s).2.count < s.rollover
        ∧ (Counter.reset_count s).count < s.rollover)
    ∧ (∀ r : ℕ, 1 ≤ r → (fun c => (c + 1) % r)^[r] 0 = 0) := by
  have step : ∀ s : CtrState, ∀ bit,
      (Counter.service_input s bit).count = s.count
      ∨ (Counter.service_input s bit).count = (s.count + 1) % s.rollover := by
    intro s bit
    rcases counter_step_cases s bit with ⟨_, h⟩ | ⟨_, h⟩ | ⟨_, h⟩
    · exact Or.inl h
    · exact Or.inr h
    · rw [h]
      split_ifs
      · exact Or.inr rfl
      · exact Or.inl rfl
  have iter : ∀ r k : ℕ, 1 ≤ r → (fun c => (c + 1) % r)^[k] 0 = k % r := by
    intro r k hr
    induction k with
    | zero => simp
    | succ k ih =>
      rw [Function.iterate_succ_apply', ih]
      exact Nat.ModEq.add_right 1 (Nat.mod_modEq k r)
  refine ⟨?_, step, ?_, ?_, ?_⟩
  · intro pull src edges b r
    cases pull <;> simp [Counter.init, DigitalBase.init]
  · intro s bit hr hc
    rcases step s bit with h | h <;> rw [h]
    · exact hc
    · exact Nat.mod_lt _ hr
  · intro s hr hc
    refine ⟨?_, by simpa [Counter.reset_count] using hr⟩
    unfold Counter.compute_value
    split_ifs
    · simpa using hr
    · simpa using hc
  · intro r hr
    rw [iter r r hr, Nat.mod_self]

/-- C6, witness: with rollover 3 and a concrete counting tick the
invariant holds, and 3 increments from 0 return the count to 0. -/
theorem counter_rollover_invariant_witness :
    ((Counter.service_input
        { reads := 1, cur_val := 1, mask := 1, edges := Counter.ONE_EDGE,
          reset_on_read := false, rollover := 3, count := 2 } 0).count < 3)
    ∧ (fun c => (c + 1) % 3)^[3] 0 = 0 :=
  ⟨counter_rollover_invariant.2.2.1
      { reads := 1, cur_val := 1, mask := 1, edges := Counter.ONE_EDGE,
        reset_on_read := false, rollover := 3, count := 2 } 0 (by decide) (by decide),
    counter_rollover_invariant.2.2.2.2 3 (by decide)⟩

/- ------------------------------------------------------------------
   Ring-buffer reasoning for the analog inputs
   ------------------------------------------------------------------ -/

/-- The ring buffer read oldest-to-newest: slot `_ix` (the next one to
be overwritten) is the oldest, slot `_ix - 1` the newest. -/
def histOf (s : AnalogState) : List ℕ :=
  s.buf.drop s.ix ++ s.buf.take s.ix

theorem length_histOf (s : AnalogState) : (histOf s).length = s.buf.length := by
  simp [histOf]
  omega

theorem sum_histOf (s : AnalogState) : (histOf s).sum = s.buf.sum := by
  rw [histOf, List.sum_append, Nat.add_comm, ← List.sum_append, List.take_append_drop]

theorem valid_service_input (s : AnalogState) (x : ℕ) (h : s.valid) :
    (AnalogBase.service_input s x).valid := by
  obtain ⟨hlen, hix⟩ := h
  constructor
  · show (s.buf.set s.ix x).length = s.buflen
    simpa using hlen
  · show (s.ix + 1) % s.buflen < s.buflen
    exact Nat.mod_lt _ (by omega)

/-- One ring write drops the oldest slot from the history and appends
the fresh sample. -/
theorem histOf_service_input (s : AnalogState) (x : ℕ) (h : s.valid) :
    histOf (AnalogBase.service_input s x) = (histOf s).tail ++ [x] := by
  obtain ⟨hlen, hix⟩ := h
  have hixlen : s.ix < s.buf.length := by omega
  have hset : s.buf.set s.ix x = s.buf.take s.ix ++ x :: s.buf.drop (s.ix + 1) :=
    List.set_eq_take_cons_drop x hixlen
  have htake_len : (s.buf.take s.ix).length = s.ix :=
    List.length_take_of_le (le_of_lt hixlen)
  have hdropne : s.buf.drop s.ix ≠ [] := by
    intro hnil
    have := congrArg List.length hnil
    simp at this
    omega
  have htail : (histOf s).tail = s.buf.drop (s.ix + 1) ++ s.buf.take s.ix := by
    rw [histOf, List.tail_append_of_ne_nil hdropne, ← List.drop_one, List.drop_drop,
      Nat.add_comm]
  by_cases hwrap : s.ix + 1 < s.buflen
  · have hix' : (s.ix + 1) % s.buflen = s.ix + 1 := Nat.mod_eq_of_lt hwrap
    rw [histOf, AnalogBase.service_input]
    simp only [hix', hset]
    have hdrop : (s.buf.take s.ix ++ x :: s.buf.drop (s.ix + 1)).drop (s.ix + 1)
        = s.buf.drop (s.ix + 1) := by
      have : s.ix + 1 = (s.buf.take s.ix).length + 1 := by omega
      rw [this, List.drop_append]
      simp
    have htake : (s.buf.take s.ix ++ x :: s.buf.drop (s.ix + 1)).take (s.ix + 1)
        = s.buf.take s.ix ++ [x] := by
      have : s.ix + 1 = (s.buf.take s.ix).length + 1 := by omega
      rw [this, List.take_append]
      simp
    rw [hdrop, htake, htail, List.append_assoc]
  · have hend : s.ix + 1 = s.buflen := by omega
    have hix' : (s.ix + 1) % s.buflen = 0 := by
      rw [hend, Nat.mod_self]
    rw [histOf, AnalogBase.service_input]
    simp only [hix', List.drop_zero, List.take_zero, List.append_nil, hset]
    have hdropnil : s.buf.drop (s.ix + 1) = [] :=
      List.drop_eq_nil_of_le (by omega)
    rw [htail, hdropnil]
    simp

/-- Running the ring buffer keeps it valid, keeps `_buflen`, and the
history after the run is the tail end of the old history followed by
the ingested samples. -/
theorem histOf_run (ss : List ℕ) : ∀ s : AnalogState, s.valid →
    (AnalogBase.run s ss).valid
    ∧ (AnalogBase.run s ss).buflen = s.buflen
    ∧ histOf (AnalogBase.run s ss) = (histOf s ++ ss).drop ss.length := by
  induction ss with
  | nil =>
    intro s h
    exact ⟨h, rfl, by simp [AnalogBase.run]⟩
  | cons x ss ih =>
    intro s h
    have hstep : AnalogBase.run s (x :: ss) = AnalogBase.run (AnalogBase.service_input s x) ss :=
      rfl
    have hvalid := valid_service_input s x h
    obtain ⟨hv, hb, hh⟩ := ih (AnalogBase.service_input s x) hvalid
    refine ⟨hstep ▸ hv, ?_, ?_⟩
    · rw [hstep, hb]
      rfl
    · rw [hstep, hh, histOf_service_input s x h]
      have hne : histOf s ≠ [] := by
        intro hnil
        have h0 := congrArg List.length hnil
        rw [length_histOf, List.length_nil] at h0
        obtain ⟨hlen, hix⟩ := h
        omega
      calc ((histOf s).tail ++ [x] ++ ss).drop ss.length
          = ((histOf s).tail ++ (x :: ss)).drop ss.length := by
            rw [List.append_assoc]
            rfl
        _ = ((histOf s ++ (x :: ss)).tail).drop ss.length := by
            rw [List.tail_append_of_ne_nil hne]
        _ = (histOf s ++ (x :: ss)).drop (1 + ss.length) := by
            rw [← List.drop_one, List.drop_drop]
        _ = (histOf s ++ (x :: ss)).drop (ss.length + 1) := by
            rw [Nat.add_comm]

/- ------------------------------------------------------------------
   Claim C7: the analog moving average
   ------------------------------------------------------------------ -/

/-- C7.  `Analog.value()` (before any convert transform) is the
arithmetic mean of all buffer slots; and after ingesting at least
`capacity` samples, it is the arithmetic average of the last `capacity`
raw samples, whatever was in the buffer before. -/
theorem analog_mean_of_last_capacity_samples :
    (∀ s : AnalogState, s.valid →
      Analog.compute_value s = (s.buf.sum : ℚ) / (s.buf.length : ℚ))
    ∧ (∀ (s : AnalogState) (ss : List ℕ), s.valid → s.buflen ≤ ss.length →
      Analog.compute_value (AnalogBase.run s ss)
        = (((ss.drop (ss.length - s.buflen)).sum : ℚ)) / (s.buflen : ℚ)) := by
  constructor
  · intro s h
    rw [Analog.compute_value, h.1]
  · intro s ss h hlen
    obtain ⟨hv, hb, hh⟩ := histOf_run ss s h
    have hhl : (histOf s).length = s.buflen := by
      rw [length_histOf, h.1]
    have hkey : (histOf s ++ ss).drop ss.length = ss.drop (ss.length - s.buflen) := by
      have hsplit : ss.length = (histOf s).length + (ss.length - s.buflen) := by
        omega
      conv_lhs => rw [hsplit]
      rw [List.drop_append]
    have hsum : (AnalogBase.run s ss).buf.sum = (ss.drop (ss.length - s.buflen)).sum := by
      rw [← sum_histOf, hh, hkey]
    rw [Analog.compute_value, hb, hsum]

/-- C7, witness: buffer of capacity 2 fed three samples averages the
last two. -/
theorem analog_mean_of_last_capacity_samples_witness :
    Analog.compute_value (AnalogBase.run { buf := [0, 0], ix := 0, buflen := 2 } [1, 2, 9])
      = (11 : ℚ) / 2 := by
  have := analog_mean_of_last_capacity_samples.2
    { buf := [0, 0], ix := 0, buflen := 2 } [1, 2, 9] (by decide) (by decide)
  simpa using this

/- ------------------------------------------------------------------
   Claim C4: counterexample on the analog side
   ------------------------------------------------------------------ -/

/-- C4, counterexample.  The claim quantifies over inputs of every
kind, but an `Analog` input's value moves after a single ingested
sample: no debounce window of identical consecutive samples (for any
`stable_read_count ≥ 2`, and `Analog` has no such parameter at all) is
needed for its `value()` to change between two reads. -/
theorem analog_value_changes_after_one_sample :
    Analog.compute_value
        (AnalogBase.service_input { buf := [0, 0], ix := 0, buflen := 2 } 100)
      ≠ Analog.compute_value { buf := [0, 0], ix := 0, buflen := 2 } := by
  norm_num [Analog.compute_value, AnalogBase.service_input]

/- ------------------------------------------------------------------
   Claim C8: two-pass deviation vs the one-pass Bessel formula
   ------------------------------------------------------------------ -/

/-- The spec's one-pass Bessel-corrected radicand
`(Σv² − (Σv)²/n) / (n − 1)` with `n = capacity`, written from the
spec's words for comparison with the implementation's two-pass
computation. -/
def besselRadicand (l : List ℕ) (n : ℕ) : ℚ :=
  ((l.map fun v : ℕ => (v : ℚ) * (v : ℚ)).sum
      - ((l.sum : ℚ) * (l.sum : ℚ)) / (n : ℚ)) / ((n : ℚ) - 1)

theorem sum_sq_dev (l : List ℚ) (m : ℚ) :
    (l.map fun v => (v - m) * (v - m)).sum
      = (l.map fun v => v * v).sum - 2 * m * l.sum + (l.length : ℚ) * (m * m) := by
  induction l with
  | nil => simp
  | cons a l ih =>
    simp only [List.map_cons, List.sum_cons, ih, List.length_cons]
    push_cast
    ring

theorem dev_sq_eq_bessel_numerator (l : List ℕ) (hn : l.length ≠ 0) :
    (l.map fun v : ℕ => ((v : ℚ) - (l.sum : ℚ) / (l.length : ℚ))
        * ((v : ℚ) - (l.sum : ℚ) / (l.length : ℚ))).sum
      = (l.map fun v : ℕ => (v : ℚ) * (v : ℚ)).sum
          - ((l.sum : ℚ) * (l.sum : ℚ)) / (l.length : ℚ) := by
  have hcast : (l.map fun v : ℕ => ((v : ℚ) - (l.sum : ℚ) / (l.length : ℚ))
        * ((v : ℚ) - (l.sum : ℚ) / (l.length : ℚ)))
      = ((l.map (Nat.cast : ℕ → ℚ)).map
          fun v : ℚ => (v - (l.sum : ℚ) / (l.length : ℚ))
            * (v - (l.sum : ℚ) / (l.length : ℚ))) := by
    rw [List.map_map]
    rfl
  have hsq : (l.map fun v : ℕ => (v : ℚ) * (v : ℚ))
      = ((l.map (Nat.cast : ℕ → ℚ)).map fun v : ℚ => v * v) := by
    rw [List.map_map]
    rfl
  have hsums : ((l.map (Nat.cast : ℕ → ℚ)).sum) = (l.sum : ℚ) :=
    (Nat.cast_list_sum l).symm
  have hlen : ((l.map (Nat.cast : ℕ → ℚ)).length) = l.length := List.length_map l _
  rw [hcast, hsq, sum_sq_dev, hsums, hlen]
  have hq : (l.length : ℚ) ≠ 0 := by
    exact_mod_cast hn
  field_simp
  ring

set_option maxRecDepth 4000 in
/-- C8.  For every valid buffer with `n = capacity ≥ 2`, the two-pass
computation of `AnalogDeviation._compute_value` (mean, then summed
squared deviations divided by `n − 1`) produces, under the square root,
exactly the spec's one-pass Bessel-corrected radicand
`(Σv² − (Σv)²/n) / (n − 1)` in exact arithmetic — hence the returned
square roots agree; a constant buffer yields deviation 0; and the
buffer `[0, 100]` with capacity 2 yields radicand 5000, whose square
root lies between 70.71 and 70.72. -/
theorem deviation_two_pass_matches_bessel :
    (∀ s : AnalogState, s.buf.length = s.buflen → 2 ≤ s.buflen →
      AnalogDeviation.compute_value_sq s = some (besselRadicand s.buf s.buflen))
    ∧ (∀ s : AnalogState, s.buf.length = s.buflen → 2 ≤ s.buflen →
      Option.map (fun q : ℚ => Real.sqrt (q : ℝ)) (AnalogDeviation.compute_value_sq s)
        = some (Real.sqrt ((besselRadicand s.buf s.buflen : ℚ) : ℝ)))
    ∧ (∀ c k : ℕ, 2 ≤ k →
      AnalogDeviation.compute_value_sq { buf := List.replicate k c, ix := 0, buflen := k }
        = some 0)
    ∧ AnalogDeviation.compute_value_sq { buf := [0, 100], ix := 0, buflen := 2 } = some 5000
    ∧ ((7071 / 100 : ℝ) < Real.sqrt ((5000 : ℚ) : ℝ)
        ∧ Real.sqrt ((5000 : ℚ) : ℝ) < (7072 / 100 : ℝ)) := by
  have main : ∀ s : AnalogState, s.buf.length = s.buflen → 2 ≤ s.buflen →
      AnalogDeviation.compute_value_sq s = some (besselRadicand s.buf s.buflen) := by
    intro s hv h2
    have h0 : s.buflen ≠ 0 := by omega
    have h1 : s.buflen ≠ 1 := by omega
    simp only [AnalogDeviation.compute_value_sq, if_neg h0, if_neg h1]
    rw [besselRadicand]
    congr 1
    rw [← hv, dev_sq_eq_bessel_numerator s.buf (by omega)]
  refine ⟨main, ?_, ?_, ?_, ?_⟩
  · intro s hv h2
    rw [main s hv h2, Option.map_some']
  · intro c k h2
    have h0 : k ≠ 0 := by omega
    have h1 : k ≠ 1 := by omega
    simp only [AnalogDeviation.compute_value_sq, if_neg h0, if_neg h1]
    have hmean : ((List.replicate k c).sum : ℚ) / (k : ℚ) = (c : ℚ) := by
      rw [List.sum_replicate, smul_eq_mul]
      push_cast
      field_simp
    rw [hmean, List.map_replicate]
    simp
  · norm_num [AnalogDeviation.compute_value_sq]
  · have hc : ((5000 : ℚ) : ℝ) = 5000 := by norm_num
    rw [hc]
    constructor
    · rw [Real.lt_sqrt (by norm_num)]
      norm_num
    · rw [Real.sqrt_lt' (by norm_num)]
      norm_num

/-- C8, witness: the concrete buffer `[0, 100]` with capacity 2, where
the two-pass value equals the one-pass Bessel radicand. -/
theorem deviation_two_pass_matches_bessel_witness :
    AnalogDeviation.compute_value_sq { buf := [0, 100], ix := 0, buflen := 2 }
      = some (besselRadicand [0, 100] 2) :=
  deviation_two_pass_matches_bessel.1 { buf := [0, 100], ix := 0, buflen := 2 } rfl
    (by decide)

/- ------------------------------------------------------------------
   Bit-window arithmetic for the debounce filter
   ------------------------------------------------------------------ -/

/-- The numeric value of a sequence of raw bits as it sits in the shift
register after being ingested in order: the last element of the list is
the most recent read and occupies the LSB. -/
def packBits (bs : List ℕ) : ℕ :=
  bs.foldl (fun a b => 2 * a + b) 0

theorem foldl_packBits (bs : List ℕ) : ∀ a : ℕ,
    bs.foldl (fun x y => 2 * x + y) a = a * 2 ^ bs.length + packBits bs := by
  induction bs with
  | nil =>
    intro a
    simp [packBits]
  | cons b bs ih =>
    intro a
    have hb : packBits (b :: bs) = b * 2 ^ bs.length + packBits bs := by
      show bs.foldl (fun x y => 2 * x + y) (2 * 0 + b) = _
      rw [ih (2 * 0 + b)]
      ring_nf
    rw [List.foldl_cons, ih (2 * a + b), hb, List.length_cons]
    ring

theorem packBits_cons (b : ℕ) (bs : List ℕ) :
    packBits (b :: bs) = b * 2 ^ bs.length + packBits bs := by
  show bs.foldl (fun x y => 2 * x + y) (2 * 0 + b) = _
  rw [foldl_packBits bs (2 * 0 + b)]
  ring_nf

theorem packBits_append (xs ys : List ℕ) :
    packBits (xs ++ ys) = packBits xs * 2 ^ ys.length + packBits ys := by
  show (xs ++ ys).foldl (fun x y => 2 * x + y) 0 = _
  rw [List.foldl_append, foldl_packBits]
  rfl

theorem packBits_lt (bs : List ℕ) (h : ∀ b ∈ bs, b ≤ 1) :
    packBits bs < 2 ^ bs.length := by
  induction bs with
  | nil => simp [packBits]
  | cons b bs ih =>
    have hb : b ≤ 1 := h b (List.mem_cons_self b bs)
    have htail := ih (fun x hx => h x (List.mem_cons_of_mem b hx))
    rw [packBits_cons, List.length_cons, pow_succ]
    have hbA : b * 2 ^ bs.length ≤ 2 ^ bs.length := by
      calc b * 2 ^ bs.length ≤ 1 * 2 ^ bs.length := Nat.mul_le_mul_right _ hb
        _ = 2 ^ bs.length := one_mul _
    omega

theorem packBits_eq_zero (bs : List ℕ) (h : ∀ b ∈ bs, b ≤ 1)
    (h0 : packBits bs = 0) : bs = List.replicate bs.length 0 := by
  induction bs with
  | nil => rfl
  | cons b bs ih =>
    rw [packBits_cons] at h0
    have hA : 0 < 2 ^ bs.length := Nat.pos_pow_of_pos _ (by norm_num)
    have hsplit : b * 2 ^ bs.length = 0 ∧ packBits bs = 0 := by omega
    have hb0 : b = 0 := by
      rcases Nat.mul_eq_zero.mp hsplit.1 with h' | h'
      · exact h'
      · omega
    rw [List.length_cons, List.replicate_succ, hb0]
    have := ih (fun x hx => h x (List.mem_cons_of_mem b hx)) hsplit.2
    rw [← this]

theorem packBits_eq_ones (bs : List ℕ) (h : ∀ b ∈ bs, b ≤ 1)
    (h1 : packBits bs = 2 ^ bs.length - 1) : bs = List.replicate bs.length 1 := by
  induction bs with
  | nil => rfl
  | cons b bs ih =>
    have hb : b ≤ 1 := h b (List.mem_cons_self b bs)
    have htail : ∀ x ∈ bs, x ≤ 1 := fun x hx => h x (List.mem_cons_of_mem b hx)
    have hlt := packBits_lt bs htail
    have hA : 0 < 2 ^ bs.length := Nat.pos_pow_of_pos _ (by norm_num)
    rw [packBits_cons, List.length_cons, pow_succ] at h1
    have hb1 : b = 1 ∧ packBits bs = 2 ^ bs.length - 1 := by
      rcases Nat.le_one_iff_eq_zero_or_eq_one.mp hb with h' | h' <;> subst h' <;>
        constructor <;> omega
    rw [List.length_cons, List.replicate_succ, hb1.1]
    have := ih htail hb1.2
    rw [← this]

/-- The list `bs` contains (at some position) a window of `W` consecutive
identical raw samples. -/
def hasRun (W : ℕ) (bs : List ℕ) : Prop :=
  ∃ i b, b ≤ 1 ∧ i + W ≤ bs.length ∧ (bs.drop i).take W = List.replicate W b

theorem hasRun_append (W : ℕ) (bs : List ℕ) (x : ℕ) (h : hasRun W bs) :
    hasRun W (bs ++ [x]) := by
  obtain ⟨i, b, hb, hle, hslice⟩ := h
  have hlen : (bs ++ [x]).length = bs.length + 1 := by simp
  refine ⟨i, b, hb, by omega, ?_⟩
  rw [List.drop_append_of_le_length (by omega),
    List.take_append_of_le_length (by rw [List.length_drop]; omega)]
  exact hslice

/-- The trichotomy driving the debounce filter from a resting state:
starting from the stable register value `c * (2^W - 1)` (`c` the stable
bit) and shifting in the raw bits `cs`, the resulting window is either
non-unanimous, or unanimous with the same bit `c` that is already
stable — unless `cs` contains `W` consecutive identical samples. -/
theorem window_cases (W c : ℕ) (hW : 1 ≤ W) (hc : c ≤ 1) (cs : List ℕ) (hne : cs ≠ [])
    (hbits : ∀ x ∈ cs, x ≤ 1) (hnr : ¬ hasRun W cs) :
    ((c * (2 ^ W - 1) * 2 ^ cs.length + packBits cs) % 2 ^ W ≠ 0
        ∧ (c * (2 ^ W - 1) * 2 ^ cs.length + packBits cs) % 2 ^ W ≠ 2 ^ W - 1)
    ∨ ((c * (2 ^ W - 1) * 2 ^ cs.length + packBits cs) % 2 ^ W = 0 ∧ c = 0)
    ∨ ((c * (2 ^ W - 1) * 2 ^ cs.length + packBits cs) % 2 ^ W = 2 ^ W - 1 ∧ c = 1) := by
  by_cases hlen : W ≤ cs.length
  · -- at least W bits were shifted in: the window is exactly the last W bits
    have hys_len : (cs.drop (cs.length - W)).length = W := by
      rw [List.length_drop]
      omega
    have hys_bits : ∀ x ∈ cs.drop (cs.length - W), x ≤ 1 :=
      fun x hx => hbits x (List.mem_of_mem_drop hx)
    have hys_lt : packBits (cs.drop (cs.length - W)) < 2 ^ W := by
      have h' := packBits_lt _ hys_bits
      rw [hys_len] at h'
      exact h'
    have hpack : packBits cs
        = packBits (cs.take (cs.length - W)) * 2 ^ W + packBits (cs.drop (cs.length - W)) := by
      conv_lhs => rw [← List.take_append_drop (cs.length - W) cs]
      rw [packBits_append, hys_len]
    obtain ⟨k, hk⟩ : 2 ^ W ∣ 2 ^ cs.length := pow_dvd_pow 2 hlen
    have hRval : (c * (2 ^ W - 1) * 2 ^ cs.length + packBits cs) % 2 ^ W
        = packBits (cs.drop (cs.length - W)) := by
      rw [hpack, hk]
      have hre : c * (2 ^ W - 1) * (2 ^ W * k)
            + (packBits (cs.take (cs.length - W)) * 2 ^ W
                + packBits (cs.drop (cs.length - W)))
          = packBits (cs.drop (cs.length - W))
            + (c * (2 ^ W - 1) * k + packBits (cs.take (cs.length - W))) * 2 ^ W := by
        ring
      rw [hre, Nat.add_mul_mod_self_right]
      exact Nat.mod_eq_of_lt hys_lt
    rw [hRval]
    left
    constructor
    · intro h0
      apply hnr
      refine ⟨cs.length - W, 0, by norm_num, by omega, ?_⟩
      have hz := packBits_eq_zero _ hys_bits h0
      rw [hys_len] at hz
      rw [List.take_of_length_le (le_of_eq hys_len), hz]
    · intro h1
      apply hnr
      refine ⟨cs.length - W, 1, by norm_num, by omega, ?_⟩
      have ho := packBits_eq_ones _ hys_bits (by rw [hys_len]; exact h1)
      rw [hys_len] at ho
      rw [List.take_of_length_le (le_of_eq hys_len), ho]
  · -- fewer than W bits shifted in so far
    have hlt : cs.length < W := by omega
    have hp : packBits cs < 2 ^ cs.length := packBits_lt cs hbits
    have hAB : 2 ^ cs.length < 2 ^ W := Nat.pow_lt_pow_right (by norm_num) hlt
    rcases Nat.le_one_iff_eq_zero_or_eq_one.mp hc with hc0 | hc1
    · subst hc0
      have hRval : (0 * (2 ^ W - 1) * 2 ^ cs.length + packBits cs) % 2 ^ W = packBits cs := by
        rw [zero_mul, zero_mul, zero_add]
        exact Nat.mod_eq_of_lt (by omega)
      rw [hRval]
      by_cases h0 : packBits cs = 0
      · exact Or.inr (Or.inl ⟨h0, rfl⟩)
      · exact Or.inl ⟨h0, by omega⟩
    · subst hc1
      have hjpos : 1 ≤ cs.length := by
        cases cs with
        | nil => exact absurd rfl hne
        | cons a l => simp
      have hsum : 1 * (2 ^ W - 1) * 2 ^ cs.length + packBits cs
          = (2 ^ W - 2 ^ cs.length + packBits cs) + (2 ^ cs.length - 1) * 2 ^ W := by
        rw [one_mul, Nat.sub_mul, one_mul, ← pow_add, Nat.sub_mul, one_mul, ← pow_add,
          Nat.add_comm cs.length W]
        have h1 : 2 ^ cs.length ≤ 2 ^ W := le_of_lt hAB
        have h2 : 2 ^ W ≤ 2 ^ (W + cs.length) :=
          Nat.pow_le_pow_right (by norm_num) (by omega)
        omega
      have hRval : (1 * (2 ^ W - 1) * 2 ^ cs.length + packBits cs) % 2 ^ W
          = 2 ^ W - 2 ^ cs.length + packBits cs := by
        rw [hsum, Nat.add_mul_mod_self_right]
        exact Nat.mod_eq_of_lt (by omega)
      rw [hRval]
      by_cases hm : 2 ^ W - 2 ^ cs.length + packBits cs = 2 ^ W - 1
      · exact Or.inr (Or.inr ⟨hm, rfl⟩)
      · exact Or.inl ⟨by omega, hm⟩

theorem shift_step (r b W : ℕ) (hb : b ≤ 1) :
    ((r <<< 1) ||| b) &&& (2 ^ W - 1) = (2 * r + b) % 2 ^ W := by
  have hb2 : b < 2 ^ 1 := by
    rw [pow_one]
    omega
  rw [Nat.shiftLeft_eq]
  calc ((r * 2 ^ 1) ||| b) &&& (2 ^ W - 1)
      = ((2 ^ 1 * r) ||| b) &&& (2 ^ W - 1) := by rw [Nat.mul_comm]
    _ = (2 ^ 1 * r + b) &&& (2 ^ W - 1) := by rw [← Nat.mul_add_lt_is_or hb2 r]
    _ = (2 ^ 1 * r + b) % 2 ^ W := by rw [Nat.and_pow_two_sub_one_eq_mod]
    _ = (2 * r + b) % 2 ^ W := by norm_num

theorem Digital.run_append (s : DigState) (bs : List ℕ) (x : ℕ) :
    Digital.run s (bs ++ [x])
      = ((Digital.service_input (Digital.run s bs).1 x).1,
        (Digital.run s bs).2 ++ (Digital.service_input (Digital.run s bs).1 x).2.toList) := by
  unfold Digital.run
  rw [List.foldl_append]
  rfl

theorem service_input_state (s : DigState) (b : ℕ) :
    (Digital.service_input s b).1.reads = nextReads s b
    ∧ (Digital.service_input s b).1.mask = s.mask := by
  simp only [Digital.service_input]
  by_cases h1 : nextReads s b ≠ 0 ∧ nextReads s b ≠ s.mask
  · rw [if_pos h1]
    exact ⟨rfl, rfl⟩
  · rw [if_neg h1]
    by_cases h2 : nextReads s b &&& 1 = s.cur_val
    · rw [if_pos h2]
      exact ⟨rfl, rfl⟩
    · rw [if_neg h2]
      by_cases h3 : nextReads s b &&& 1 > s.cur_val
      · rw [if_pos h3]
        exact ⟨rfl, rfl⟩
      · rw [if_neg h3]
        exact ⟨rfl, rfl⟩

theorem reads_run (W : ℕ) (s : DigState) (hm : s.mask = 2 ^ W - 1) (hr : s.reads < 2 ^ W) :
    ∀ bs : List ℕ, (∀ x ∈ bs, x ≤ 1) →
    (Digital.run s bs).1.reads = (s.reads * 2 ^ bs.length + packBits bs) % 2 ^ W
    ∧ (Digital.run s bs).1.mask = s.mask := by
  intro bs
  induction bs using List.reverseRecOn with
  | nil =>
    intro _
    refine ⟨?_, rfl⟩
    show s.reads = _
    simp only [List.length_nil, pow_zero, Nat.mul_one, packBits, List.foldl_nil, Nat.add_zero]
    exact (Nat.mod_eq_of_lt hr).symm
  | append_singleton bs x ih =>
    intro hbs
    have hbs' : ∀ y ∈ bs, y ≤ 1 := fun y hy => hbs y (List.mem_append_left _ hy)
    have hx : x ≤ 1 := hbs x (List.mem_append_right _ (List.mem_singleton_self x))
    obtain ⟨ihr, ihm⟩ := ih hbs'
    rw [Digital.run_append]
    refine ⟨?_, by rw [(service_input_state _ x).2, ihm]⟩
    rw [(service_input_state _ x).1, nextReads, ihm, hm, ihr, shift_step _ _ _ hx]
    have hcong : (2 * ((s.reads * 2 ^ bs.length + packBits bs) % 2 ^ W) + x) % 2 ^ W
        = (2 * (s.reads * 2 ^ bs.length + packBits bs) + x) % 2 ^ W :=
      Nat.ModEq.add_right x (Nat.ModEq.mul_left 2 (Nat.mod_modEq _ _))
    rw [hcong]
    congr 1
    have hpx : packBits [x] = x := by
      simp [packBits]
    rw [packBits_append, hpx, List.length_append, List.length_singleton]
    ring

/-- A resting (debounced-stable) digital state: the whole window agrees
with the current value.  `DigitalBase.__init__` produces exactly such
states. -/
def stableFor (s : DigState) : Prop :=
  (s.reads = 0 ∧ s.cur_val = 0) ∨ (s.reads = s.mask ∧ s.cur_val = 1)

theorem service_input_no_change (t : DigState) (x : ℕ)
    (h : (nextReads t x ≠ 0 ∧ nextReads t x ≠ t.mask) ∨ nextReads t x &&& 1 = t.cur_val) :
    Digital.service_input t x = ({ t with reads := nextReads t x }, none) := by
  simp only [Digital.service_input]
  rcases h with h | h
  · rw [if_pos h]
  · by_cases h1 : nextReads t x ≠ 0 ∧ nextReads t x ≠ t.mask
    · rw [if_pos h1]
    · rw [if_neg h1, if_pos h]

/-- Core debounce safety: from a resting state, as long as the ingested
raw sequence contains no window of `stable_read_count` consecutive
identical samples, the stable value never changes and no edge callback
fires. -/
theorem stable_no_run_digital (W : ℕ) (hW : 1 ≤ W) (s : DigState)
    (hm : s.mask = 2 ^ W - 1) (hst : stableFor s) :
    ∀ bs : List ℕ, (∀ x ∈ bs, x ≤ 1) → ¬ hasRun W bs →
    (Digital.run s bs).1.cur_val = s.cur_val ∧ (Digital.run s bs).2 = [] := by
  have h2W : 1 < 2 ^ W := Nat.one_lt_two_pow_iff.mpr (by omega)
  have hcv : s.reads = s.cur_val * (2 ^ W - 1) ∧ s.cur_val ≤ 1 := by
    rcases hst with ⟨h1, h2⟩ | ⟨h1, h2⟩
    · rw [h1, h2]
      exact ⟨by ring, by norm_num⟩
    · rw [h1, h2, hm]
      exact ⟨(one_mul _).symm, le_refl 1⟩
  have hrlt : s.reads < 2 ^ W := by
    rcases hst with ⟨h1, _⟩ | ⟨h1, _⟩
    · rw [h1]
      omega
    · rw [h1, hm]
      omega
  intro bs
  induction bs using List.reverseRecOn with
  | nil =>
    intro _ _
    exact ⟨rfl, rfl⟩
  | append_singleton bs x ih =>
    intro hbs hnr
    have hbs' : ∀ y ∈ bs, y ≤ 1 := fun y hy => hbs y (List.mem_append_left _ hy)
    have hx : x ≤ 1 := hbs x (List.mem_append_right _ (List.mem_singleton_self x))
    have hnr' : ¬ hasRun W bs := fun hr => hnr (hasRun_append W bs x hr)
    obtain ⟨ihc, ihe⟩ := ih hbs' hnr'
    obtain ⟨hreads, hmask⟩ := reads_run W s hm hrlt bs hbs'
    have hnxt : nextReads (Digital.run s bs).1 x
        = (s.cur_val * (2 ^ W - 1) * 2 ^ (bs ++ [x]).length + packBits (bs ++ [x])) % 2 ^ W := by
      have h2 := (reads_run W s hm hrlt (bs ++ [x]) hbs).1
      rw [Digital.run_append, (service_input_state _ x).1] at h2
      rw [h2, hcv.1]
    have hwc := window_cases W s.cur_val hW hcv.2 (bs ++ [x]) (by simp) hbs hnr
    have hP : (nextReads (Digital.run s bs).1 x ≠ 0
          ∧ nextReads (Digital.run s bs).1 x ≠ (Digital.run s bs).1.mask)
        ∨ nextReads (Digital.run s bs).1 x &&& 1 = (Digital.run s bs).1.cur_val := by
      rcases hwc with ⟨hz, hmk⟩ | ⟨hz, hc0⟩ | ⟨hz, hc1⟩
      · left
        constructor
        · rw [hnxt]
          exact hz
        · rw [hnxt, hmask, hm]
          exact hmk
      · right
        rw [hnxt, hz, Nat.zero_and, ihc, hc0]
      · right
        rw [hnxt, hz, Nat.and_one_is_mod, Nat.two_pow_sub_one_mod_two,
          Nat.mod_eq_of_lt h2W, ihc, hc1]
    have hstep := service_input_no_change (Digital.run s bs).1 x hP
    constructor
    · rw [Digital.run_append, hstep]
      exact ihc
    · rw [Digital.run_append, hstep, ihe]
      rfl

/- ------------------------------------------------------------------
   The counter's debounce mirrors the digital one
   ------------------------------------------------------------------ -/

/-- The `DigitalBase` portion of a counter's state. -/
def CtrState.toDig (s : CtrState) : DigState :=
  { reads := s.reads, cur_val := s.cur_val, mask := s.mask }

theorem toDig_service_input (s : CtrState) (b : ℕ) :
    (Counter.service_input s b).toDig = (Digital.service_input s.toDig b).1 := by
  simp only [Counter.service_input, Digital.service_input]
  by_cases h1 : Counter.nextReads s b ≠ 0 ∧ Counter.nextReads s b ≠ s.mask
  · have h1' : nextReads s.toDig b ≠ 0 ∧ nextReads s.toDig b ≠ s.toDig.mask := h1
    rw [if_pos h1, if_pos h1']
    rfl
  · have h1' : ¬ (nextReads s.toDig b ≠ 0 ∧ nextReads s.toDig b ≠ s.toDig.mask) := h1
    rw [if_neg h1, if_neg h1']
    by_cases h2 : Counter.nextReads s b &&& 1 = s.cur_val
    · have h2' : nextReads s.toDig b &&& 1 = s.toDig.cur_val := h2
      rw [if_pos h2, if_pos h2']
      rfl
    · have h2' : ¬ (nextReads s.toDig b &&& 1 = s.toDig.cur_val) := h2
      rw [if_neg h2, if_neg h2']
      by_cases h3 : Counter.nextReads s b &&& 1 < s.cur_val
      · have h3' : ¬ (nextReads s.toDig b &&& 1 > s.toDig.cur_val) := by
          show ¬ (Counter.nextReads s b &&& 1 > s.cur_val)
          omega
        rw [if_pos h3, if_neg h3']
        rfl
      · have h3' : nextReads s.toDig b &&& 1 > s.toDig.cur_val := by
          show Counter.nextReads s b &&& 1 > s.cur_val
          omega
        rw [if_neg h3, if_pos h3']
        by_cases h4 : s.edges = Counter.BOTH_EDGES
        · rw [if_pos h4]
          rfl
        · rw [if_neg h4]
          rfl

theorem Counter.run_snoc (s : CtrState) (bs : List ℕ) (x : ℕ) :
    Counter.run s (bs ++ [x]) = Counter.service_input (Counter.run s bs) x := by
  unfold Counter.run
  rw [List.foldl_append]
  rfl

theorem toDig_run (bs : List ℕ) : ∀ s : CtrState,
    (Counter.run s bs).toDig = (Digital.run s.toDig bs).1 := by
  induction bs using List.reverseRecOn with
  | nil => intro s; rfl
  | append_singleton bs x ih =>
    intro s
    rw [Counter.run_snoc, Digital.run_append, toDig_service_input, ih]

theorem counter_service_input_no_change (t : CtrState) (x : ℕ)
    (h : (Counter.nextReads t x ≠ 0 ∧ Counter.nextReads t x ≠ t.mask)
      ∨ Counter.nextReads t x &&& 1 = t.cur_val) :
    Counter.service_input t x = { t with reads := Counter.nextReads t x } := by
  simp only [Counter.service_input]
  rcases h with h | h
  · rw [if_pos h]
  · by_cases h1 : Counter.nextReads t x ≠ 0 ∧ Counter.nextReads t x ≠ t.mask
    · rw [if_pos h1]
    · rw [if_neg h1, if_pos h]

/-- Same resting-state predicate for a counter. -/
def stableForC (s : CtrState) : Prop :=
  (s.reads = 0 ∧ s.cur_val = 0) ∨ (s.reads = s.mask ∧ s.cur_val = 1)

/-- Core debounce safety for counters: from a resting state, as long as
the raw sequence contains no window of `stable_read_count` consecutive
identical samples, neither the stable value nor the count changes. -/
theorem stable_no_run_counter (W : ℕ) (hW : 1 ≤ W) (s : CtrState)
    (hm : s.mask = 2 ^ W - 1) (hst : stableForC s) :
    ∀ bs : List ℕ, (∀ x ∈ bs, x ≤ 1) → ¬ hasRun W bs →
    (Counter.run s bs).cur_val = s.cur_val ∧ (Counter.run s bs).count = s.count := by
  have h2W : 1 < 2 ^ W := Nat.one_lt_two_pow_iff.mpr (by omega)
  have hstD : stableFor s.toDig := hst
  have hmD : s.toDig.mask = 2 ^ W - 1 := hm
  have hcv : s.toDig.reads = s.toDig.cur_val * (2 ^ W - 1) ∧ s.toDig.cur_val ≤ 1 := by
    rcases hstD with ⟨h1, h2⟩ | ⟨h1, h2⟩
    · rw [h1, h2]
      exact ⟨by ring, by norm_num⟩
    · rw [h1, h2, hmD]
      exact ⟨(one_mul _).symm, le_refl 1⟩
  have hrlt : s.toDig.reads < 2 ^ W := by
    rcases hstD with ⟨h1, _⟩ | ⟨h1, _⟩
    · rw [h1]
      omega
    · rw [h1, hmD]
      omega
  intro bs
  induction bs using List.reverseRecOn with
  | nil =>
    intro _ _
    exact ⟨rfl, rfl⟩
  | append_singleton bs x ih =>
    intro hbs hnr
    have hbs' : ∀ y ∈ bs, y ≤ 1 := fun y hy => hbs y (List.mem_append_left _ hy)
    have hnr' : ¬ hasRun W bs := fun hr => hnr (hasRun_append W bs x hr)
    obtain ⟨ihc, ihk⟩ := ih hbs' hnr'
    obtain ⟨hreads, hmask⟩ := reads_run W s.toDig hmD hrlt bs hbs'
    have htd := toDig_run bs s
    have hnxt : Counter.nextReads (Counter.run s bs) x
        = (s.cur_val * (2 ^ W - 1) * 2 ^ (bs ++ [x]).length + packBits (bs ++ [x])) % 2 ^ W := by
      have he : Counter.nextReads (Counter.run s bs) x
          = nextReads (Counter.run s bs).toDig x := rfl
      rw [he, htd]
      have h2 := (reads_run W s.toDig hmD hrlt (bs ++ [x]) hbs).1
      rw [Digital.run_append, (service_input_state _ x).1] at h2
      rw [h2, hcv.1]
      rfl
    have hwc := window_cases W s.cur_val hW hcv.2 (bs ++ [x]) (by simp) hbs hnr
    have hmaskC : (Counter.run s bs).mask = s.mask := by
      have h' : (Counter.run s bs).toDig.mask = s.toDig.mask := by
        rw [htd]
        exact hmask
      exact h'
    have hP : (Counter.nextReads (Counter.run s bs) x ≠ 0
          ∧ Counter.nextReads (Counter.run s bs) x ≠ (Counter.run s bs).mask)
        ∨ Counter.nextReads (Counter.run s bs) x &&& 1 = (Counter.run s bs).cur_val := by
      rcases hwc with ⟨hz, hmk⟩ | ⟨hz, hc0⟩ | ⟨hz, hc1⟩
      · left
        constructor
        · rw [hnxt]
          exact hz
        · rw [hnxt, hmaskC, hm]
          exact hmk
      · right
        rw [hnxt, hz, Nat.zero_and, ihc, hc0]
      · right
        rw [hnxt, hz, Nat.and_one_is_mod, Nat.two_pow_sub_one_mod_two,
          Nat.mod_eq_of_lt h2W, ihc, hc1]
    have hstep := counter_service_input_no_change (Counter.run s bs) x hP
    rw [Counter.run_snoc, hstep]
    exact ⟨ihc, ihk⟩

/- ------------------------------------------------------------------
   Claim C4: which inputs obey the stable-window rule
   ------------------------------------------------------------------ -/

/-- C4, amended.  For the debounced kinds — `Digital` and `Counter` —
starting from a resting state, the stable value (and for counters the
count) can only change if the ingested raw sequence contains at least
`stable_read_count` identical consecutive samples.  (The original claim
extended this to analog inputs; `analog_value_changes_after_one_sample`
refutes that, and a `Counter` read with `reset_on_read` also changes
the reported value with no ingest at all.) -/
theorem value_change_requires_stable_window :
    (∀ (W : ℕ) (s : DigState) (bs : List ℕ), 1 ≤ W → s.mask = 2 ^ W - 1 → stableFor s →
      (∀ x ∈ bs, x ≤ 1) → (Digital.run s bs).1.cur_val ≠ s.cur_val → hasRun W bs)
    ∧ (∀ (W : ℕ) (s : CtrState) (bs : List ℕ), 1 ≤ W → s.mask = 2 ^ W - 1 → stableForC s →
      (∀ x ∈ bs, x ≤ 1) →
      ((Counter.run s bs).cur_val ≠ s.cur_val ∨ (Counter.run s bs).count ≠ s.count) →
      hasRun W bs) := by
  constructor
  · intro W s bs hW hm hst hbs hch
    by_contra hnr
    exact hch (stable_no_run_digital W hW s hm hst bs hbs hnr).1
  · intro W s bs hW hm hst hbs hch
    by_contra hnr
    obtain ⟨h1, h2⟩ := stable_no_run_counter W hW s hm hst bs hbs hnr
    rcases hch with hch | hch
    · exact hch h1
    · exact hch h2

/-- C4, witness for the amended theorem: a digital input with
`stable_read_count = 2` starting stable low changes value after two
consecutive high samples, which indeed form a stable window. -/
theorem value_change_requires_stable_window_witness :
    hasRun 2 [1, 1] :=
  value_change_requires_stable_window.1 2 { reads := 0, cur_val := 0, mask := 3 } [1, 1]
    (by decide) (by decide) (Or.inl ⟨rfl, rfl⟩) (by decide) (by decide)

/- ------------------------------------------------------------------
   Claim C10: startup state and the resting level
   ------------------------------------------------------------------ -/

/-- The raw level a pulled line rests at: 1 under `PULL_UP`, 0
otherwise. -/
def restingLevel (pull : Pull) : ℕ :=
  if pull = Pull.up then 1 else 0

theorem Digital.run_aux (bs : List ℕ) : ∀ (s : DigState) (es : List Edge),
    bs.foldl
        (fun p b =>
          let r := Digital.service_input p.1 b
          (r.1, p.2 ++ r.2.toList)) (s, es)
      = ((Digital.run s bs).1, es ++ (Digital.run s bs).2) := by
  induction bs with
  | nil =>
    intro s es
    show (s, es) = (s, es ++ [])
    rw [List.append_nil]
  | cons b bs ih =>
    intro s es
    rw [List.foldl_cons, ih]
    have hr : Digital.run s (b :: bs)
        = ((Digital.run (Digital.service_input s b).1 bs).1,
          (Digital.service_input s b).2.toList
            ++ (Digital.run (Digital.service_input s b).1 bs).2) := by
      show List.foldl _ _ _ = _
      rw [List.foldl_cons, ih]
      rfl
    rw [hr]
    rw [List.append_assoc]

theorem Digital.run_cons (s : DigState) (b : ℕ) (bs : List ℕ) :
    Digital.run s (b :: bs)
      = ((Digital.run (Digital.service_input s b).1 bs).1,
        (Digital.service_input s b).2.toList
          ++ (Digital.run (Digital.service_input s b).1 bs).2) := by
  show List.foldl _ _ _ = _
  rw [List.foldl_cons, Digital.run_aux]
  rfl

/-- A resting digital state is a fixed point of `service_input` fed its
own stable level: nothing changes and no edge fires. -/
theorem stable_fixed_digital (W : ℕ) (hW : 1 ≤ W) (t : DigState)
    (hm : t.mask = 2 ^ W - 1) (hst : stableFor t) :
    Digital.service_input t t.cur_val = (t, none) := by
  have h2W : 1 < 2 ^ W := Nat.one_lt_two_pow_iff.mpr (by omega)
  rcases hst with ⟨h1, h2⟩ | ⟨h1, h2⟩
  · have hnr : nextReads t t.cur_val = 0 := by
      rw [nextReads, hm, h1, h2, shift_step 0 0 W (by norm_num)]
      simp
    have hP := service_input_no_change t t.cur_val
      (Or.inr (by rw [hnr, Nat.zero_and]; exact h2.symm))
    rw [hP, hnr, ← h1]
  · have hnr : nextReads t t.cur_val = 2 ^ W - 1 := by
      rw [nextReads, hm, h1, hm, h2, shift_step _ 1 W (by norm_num)]
      have he : 2 * (2 ^ W - 1) + 1 = (2 ^ W - 1) + 1 * 2 ^ W := by omega
      rw [he, Nat.add_mul_mod_self_right]
      exact Nat.mod_eq_of_lt (by omega)
    have hP := service_input_no_change t t.cur_val
      (Or.inr (by
        rw [hnr, Nat.and_one_is_mod, Nat.two_pow_sub_one_mod_two, Nat.mod_eq_of_lt h2W]
        exact h2.symm))
    have hr : (2 : ℕ) ^ W - 1 = t.reads := by
      rw [h1, hm]
    rw [hP, hnr, hr]

theorem run_replicate_digital (W : ℕ) (hW : 1 ≤ W) (t : DigState)
    (hm : t.mask = 2 ^ W - 1) (hst : stableFor t) :
    ∀ k : ℕ, Digital.run t (List.replicate k t.cur_val) = (t, []) := by
  intro k
  induction k with
  | zero => rfl
  | succ k ih =>
    rw [List.replicate_succ, Digital.run_cons, stable_fixed_digital W hW t hm hst]
    show ((Digital.run t (List.replicate k t.cur_val)).1,
      (Digital.run t (List.replicate k t.cur_val)).2) = (t, [])
    rw [ih]

theorem stable_fixed_counter (W : ℕ) (hW : 1 ≤ W) (t : CtrState)
    (hm : t.mask = 2 ^ W - 1) (hst : stableForC t) :
    Counter.service_input t t.cur_val = t := by
  have h2W : 1 < 2 ^ W := Nat.one_lt_two_pow_iff.mpr (by omega)
  rcases hst with ⟨h1, h2⟩ | ⟨h1, h2⟩
  · have hnr : Counter.nextReads t t.cur_val = 0 := by
      rw [Counter.nextReads, hm, h1, h2, shift_step 0 0 W (by norm_num)]
      simp
    have hP := counter_service_input_no_change t t.cur_val
      (Or.inr (by rw [hnr, Nat.zero_and]; exact h2.symm))
    rw [hP, hnr, ← h1]
  · have hnr : Counter.nextReads t t.cur_val = 2 ^ W - 1 := by
      rw [Counter.nextReads, hm, h1, hm, h2, shift_step _ 1 W (by norm_num)]
      have he : 2 * (2 ^ W - 1) + 1 = (2 ^ W - 1) + 1 * 2 ^ W := by omega
      rw [he, Nat.add_mul_mod_self_right]
      exact Nat.mod_eq_of_lt (by omega)
    have hP := counter_service_input_no_change t t.cur_val
      (Or.inr (by
        rw [hnr, Nat.and_one_is_mod, Nat.two_pow_sub_one_mod_two, Nat.mod_eq_of_lt h2W]
        exact h2.symm))
    have hr : (2 : ℕ) ^ W - 1 = t.reads := by
      rw [h1, hm]
    rw [hP, hnr, hr]

theorem run_replicate_counter (W : ℕ) (hW : 1 ≤ W) (t : CtrState)
    (hm : t.mask = 2 ^ W - 1) (hst : stableForC t) :
    ∀ k : ℕ, Counter.run t (List.replicate k t.cur_val) = t := by
  intro k
  induction k with
  | zero => rfl
  | succ k ih =>
    rw [List.replicate_succ]
    show Counter.run (Counter.service_input t t.cur_val) (List.replicate k t.cur_val) = t
    rw [stable_fixed_counter W hW t hm hst, ih]

/-- C10.  `DigitalBase.__init__` starts the state at the configured
pull's resting level: with `PULL_UP` the stable value is 1 and the read
window equals the mask (all ones); with any other pull the stable value
is 0 and the window is all zeros.  Consequently, for both `Digital` and
`Counter` inputs, ingesting any number of raw reads that stay at the
resting level fires no edge callback and leaves the whole state — value
and count included — unchanged. -/
theorem startup_state_matches_pull :
    (∀ W, (DigitalBase.init Pull.up W).reads = (DigitalBase.init Pull.up W).mask
      ∧ (DigitalBase.init Pull.up W).cur_val = 1)
    ∧ (∀ W pull, pull ≠ Pull.up →
      (DigitalBase.init pull W).reads = 0 ∧ (DigitalBase.init pull W).cur_val = 0)
    ∧ (∀ W pull k, 1 ≤ W →
      Digital.run (DigitalBase.init pull W) (List.replicate k (restingLevel pull))
        = (DigitalBase.init pull W, []))
    ∧ (∀ W pull edges b r k, 1 ≤ W →
      Counter.run (Counter.init pull W edges b r) (List.replicate k (restingLevel pull))
        = Counter.init pull W edges b r) := by
  have hfields : ∀ pull W, stableFor (DigitalBase.init pull W)
      ∧ (DigitalBase.init pull W).cur_val = restingLevel pull
      ∧ (DigitalBase.init pull W).mask = 2 ^ W - 1 := by
    intro pull W
    cases pull with
    | up => exact ⟨Or.inr ⟨rfl, rfl⟩, rfl, rfl⟩
    | down => exact ⟨Or.inl ⟨rfl, rfl⟩, rfl, rfl⟩
    | free => exact ⟨Or.inl ⟨rfl, rfl⟩, rfl, rfl⟩
  have hfieldsC : ∀ pull W edges b r, stableForC (Counter.init pull W edges b r)
      ∧ (Counter.init pull W edges b r).cur_val = restingLevel pull
      ∧ (Counter.init pull W edges b r).mask = 2 ^ W - 1 := by
    intro pull W edges b r
    cases pull with
    | up => exact ⟨Or.inr ⟨rfl, rfl⟩, rfl, rfl⟩
    | down => exact ⟨Or.inl ⟨rfl, rfl⟩, rfl, rfl⟩
    | free => exact ⟨Or.inl ⟨rfl, rfl⟩, rfl, rfl⟩
  refine ⟨fun W => ⟨rfl, rfl⟩, fun W pull hp => ?_, fun W pull k hW => ?_,
    fun W pull edges b r k hW => ?_⟩
  · cases pull with
    | up => exact absurd rfl hp
    | down => exact ⟨rfl, rfl⟩
    | free => exact ⟨rfl, rfl⟩
  · obtain ⟨hst, hcur, hmk⟩ := hfields pull W
    rw [← hcur]
    exact run_replicate_digital W hW _ hmk hst k
  · obtain ⟨hst, hcur, hmk⟩ := hfieldsC pull W edges b r
    rw [← hcur]
    exact run_replicate_counter W hW _ hmk hst k

/-- C10, witness: a default `PULL_UP` digital input with
`stable_read_count = 12` fed three resting (high) reads stays exactly
in its startup state with no edges. -/
theorem startup_state_matches_pull_witness :
    Digital.run (DigitalBase.init Pull.up 12) (List.replicate 3 (restingLevel Pull.up))
      = (DigitalBase.init Pull.up 12, []) :=
  startup_state_matches_pull.2.2.1 12 Pull.up 3 (by norm_num)

/- ------------------------------------------------------------------
   Claim C3: edges fire exactly on unanimous differing windows
   ------------------------------------------------------------------ -/

theorem digital_step_iff (W : ℕ) (s : DigState) (bit : ℕ) (hW : 1 ≤ W)
    (hm : s.mask = 2 ^ W - 1) (hc : s.cur_val ≤ 1) :
    ((Digital.service_input s bit).1.cur_val ≠ s.cur_val
      ↔ ((nextReads s bit = 0 ∨ nextReads s bit = s.mask)
          ∧ nextReads s bit &&& 1 ≠ s.cur_val))
    ∧ ((Digital.service_input s bit).2 = some Edge.rising
      ↔ (nextReads s bit = s.mask ∧ s.cur_val = 0))
    ∧ ((Digital.service_input s bit).2 = some Edge.falling
      ↔ (nextReads s bit = 0 ∧ s.cur_val = 1))
    ∧ ((Digital.service_input s bit).2 = none
      ↔ (Digital.service_input s bit).1.cur_val = s.cur_val) := by
  have h2W : 1 < 2 ^ W := Nat.one_lt_two_pow_iff.mpr (by omega)
  have hmne : s.mask ≠ 0 := by
    rw [hm]
    omega
  have hm1 : s.mask &&& 1 = 1 := by
    rw [hm, Nat.and_one_is_mod, Nat.two_pow_sub_one_mod_two]
    exact Nat.mod_eq_of_lt h2W
  by_cases h1 : nextReads s bit ≠ 0 ∧ nextReads s bit ≠ s.mask
  · rw [service_input_no_change s bit (Or.inl h1)]
    refine ⟨?_, ?_, ?_, ?_⟩
    · exact iff_of_false (fun h => h rfl) (fun h => h.1.elim h1.1 h1.2)
    · exact iff_of_false (by simp) (fun h => h1.2 h.1)
    · exact iff_of_false (by simp) (fun h => h1.1 h.1)
    · exact iff_of_true rfl rfl
  · have hor : nextReads s bit = 0 ∨ nextReads s bit = s.mask := by
      by_cases h0 : nextReads s bit = 0
      · exact Or.inl h0
      · right
        by_contra hmm2
        exact h1 ⟨h0, hmm2⟩
    rcases hor with h0 | h0
    · have hnew : nextReads s bit &&& 1 = 0 := by
        rw [h0, Nat.zero_and]
      by_cases hcv : s.cur_val = 0
      · rw [service_input_no_change s bit (Or.inr (by rw [hnew, hcv]))]
        refine ⟨?_, ?_, ?_, ?_⟩
        · exact iff_of_false (fun h => h rfl) (fun h => h.2 (hnew.trans hcv.symm))
        · exact iff_of_false (by simp) (fun h => hmne ((h0.symm.trans h.1).symm))
        · exact iff_of_false (by simp)
            (fun h => absurd (hcv.symm.trans h.2) (by norm_num))
        · exact iff_of_true rfl rfl
      · have hcv1 : s.cur_val = 1 := by omega
        have hres : Digital.service_input s bit
            = ({ s with reads := nextReads s bit, cur_val := nextReads s bit &&& 1 },
              some Edge.falling) := by
          simp only [Digital.service_input]
          rw [if_neg h1, if_neg (by rw [hnew, hcv1]; norm_num),
            if_neg (by rw [hnew, hcv1]; norm_num)]
        rw [hres]
        refine ⟨?_, ?_, ?_, ?_⟩
        · refine iff_of_true ?_ ⟨Or.inl h0, by rw [hnew, hcv1]; norm_num⟩
          show nextReads s bit &&& 1 ≠ s.cur_val
          rw [hnew, hcv1]
          norm_num
        · exact iff_of_false (by simp) (fun h => hmne ((h0.symm.trans h.1).symm))
        · exact iff_of_true rfl ⟨h0, hcv1⟩
        · refine iff_of_false (by simp) ?_
          show ¬ (nextReads s bit &&& 1 = s.cur_val)
          rw [hnew, hcv1]
          norm_num
    · have hnew : nextReads s bit &&& 1 = 1 := by
        rw [h0, hm1]
      by_cases hcv : s.cur_val = 1
      · rw [service_input_no_change s bit (Or.inr (by rw [hnew, hcv]))]
        refine ⟨?_, ?_, ?_, ?_⟩
        · exact iff_of_false (fun h => h rfl) (fun h => h.2 (hnew.trans hcv.symm))
        · exact iff_of_false (by simp)
            (fun h => absurd (hcv.symm.trans h.2) (by norm_num))
        · exact iff_of_false (by simp) (fun h => hmne (h0.symm.trans h.1))
        · exact iff_of_true rfl rfl
      · have hcv0 : s.cur_val = 0 := by omega
        have hres : Digital.service_input s bit
            = ({ s with reads := nextReads s bit, cur_val := nextReads s bit &&& 1 },
              some Edge.rising) := by
          simp only [Digital.service_input]
          rw [if_neg h1, if_neg (by rw [hnew, hcv0]; norm_num),
            if_pos (by rw [hnew, hcv0]; norm_num)]
        rw [hres]
        refine ⟨?_, ?_, ?_, ?_⟩
        · refine iff_of_true ?_ ⟨Or.inr h0, by rw [hnew, hcv0]; norm_num⟩
          show nextReads s bit &&& 1 ≠ s.cur_val
          rw [hnew, hcv0]
          norm_num
        · exact iff_of_true rfl ⟨h0, hcv0⟩
        · exact iff_of_false (by simp) (fun h => hmne (h0.symm.trans h.1))
        · refine iff_of_false (by simp) ?_
          show ¬ (nextReads s bit &&& 1 = s.cur_val)
          rw [hnew, hcv0]
          norm_num

/-- An alternating (maximally bouncy) raw sequence of length `k`
starting with level `b`. -/
def altSeq : ℕ → ℕ → List ℕ
  | _, 0 => []
  | b, k + 1 => b :: altSeq (1 - b) k

theorem altSeq_length (b k : ℕ) : (altSeq b k).length = k := by
  induction k generalizing b with
  | zero => rfl
  | succ k ih =>
    show (altSeq b (k + 1)).length = k + 1
    rw [altSeq, List.length_cons, ih]

theorem altSeq_bits (b k : ℕ) (hb : b ≤ 1) : ∀ x ∈ altSeq b k, x ≤ 1 := by
  induction k generalizing b with
  | zero =>
    intro x hx
    exact absurd hx (List.not_mem_nil x)
  | succ k ih =>
    intro x hx
    rw [altSeq] at hx
    rcases List.mem_cons.mp hx with h | h
    · rw [h]
      exact hb
    · exact ih (1 - b) (by omega) x h

/-- C3.  A single ingest step of a `Digital` input changes the stable
value exactly when the shifted `stable_read_count`-bit window is
unanimous (all zeros or all ones, i.e. equals `0` or the mask) and the
unanimous bit (the window's LSB) differs from the current stable value;
the rising (resp. falling) callback fires exactly on the unanimous
all-ones (resp. all-zeros) window with stable value 0 (resp. 1), and a
callback fires exactly when the value changes.  Consequently, from a
resting state, an alternating (bouncy) raw sequence of length
`< stable_read_count` never produces an edge or a value change. -/
theorem digital_edge_exactly_on_unanimous_window :
    (∀ (W : ℕ) (s : DigState) (bit : ℕ), 1 ≤ W → s.mask = 2 ^ W - 1 → s.cur_val ≤ 1 →
      ((Digital.service_input s bit).1.cur_val ≠ s.cur_val
        ↔ ((nextReads s bit = 0 ∨ nextReads s bit = s.mask)
            ∧ nextReads s bit &&& 1 ≠ s.cur_val))
      ∧ ((Digital.service_input s bit).2 = some Edge.rising
        ↔ (nextReads s bit = s.mask ∧ s.cur_val = 0))
      ∧ ((Digital.service_input s bit).2 = some Edge.falling
        ↔ (nextReads s bit = 0 ∧ s.cur_val = 1))
      ∧ ((Digital.service_input s bit).2 = none
        ↔ (Digital.service_input s bit).1.cur_val = s.cur_val))
    ∧ (∀ (W : ℕ) (s : DigState) (b k : ℕ), 1 ≤ W → s.mask = 2 ^ W - 1 → stableFor s →
      b ≤ 1 → k < W →
      (Digital.run s (altSeq b k)).1.cur_val = s.cur_val
        ∧ (Digital.run s (altSeq b k)).2 = []) := by
  constructor
  · intro W s bit hW hm hc
    exact digital_step_iff W s bit hW hm hc
  · intro W s b k hW hm hst hb hk
    have hnr : ¬ hasRun W (altSeq b k) := by
      rintro ⟨i, bb, hbb, hle, hslice⟩
      rw [altSeq_length] at hle
      omega
    exact stable_no_run_digital W hW s hm hst (altSeq b k) (altSeq_bits b k hb) hnr

/-- C3, witness: with `stable_read_count = 2`, a mixed (non-unanimous)
window produces no change and no edge, and a two-sample alternating
bounce from the resting high state changes nothing. -/
theorem digital_edge_exactly_on_unanimous_window_witness :
    (((Digital.service_input { reads := 3, cur_val := 1, mask := 3 } 0).1.cur_val ≠ 1
      ↔ ((nextReads { reads := 3, cur_val := 1, mask := 3 } 0 = 0
          ∨ nextReads { reads := 3, cur_val := 1, mask := 3 } 0 = 3)
        ∧ nextReads { reads := 3, cur_val := 1, mask := 3 } 0 &&& 1 ≠ 1))
    ∧ (Digital.run { reads := 3, cur_val := 1, mask := 3 } (altSeq 0 1)).1.cur_val = 1) :=
  ⟨(digital_edge_exactly_on_unanimous_window.1 2 { reads := 3, cur_val := 1, mask := 3 } 0
      (by norm_num) (by norm_num) (by norm_num)).1,
    (digital_edge_exactly_on_unanimous_window.2 2 { reads := 3, cur_val := 1, mask := 3 } 0 1
      (by norm_num) (by norm_num) (Or.inr ⟨rfl, rfl⟩) (by norm_num) (by norm_num)).1⟩
